import Mathlib

/-!
Verification of the radix-sort primitive declared in
`src/contrib/Orochi/ParallelPrimitives/RadixSort.h` (class `Oro::RadixSort`).

The repository ships only the class declaration; the bodies
(`RadixSort.inl` and the GPU kernels) are not part of the source tree.
Definitions taken directly from the header (the `u32` key/value type,
the `Flag` and `ScanAlgo` enums, the `selectedScanAlgo` constant) are
marked as such; every algorithmic body is marked `Modelled from the
spec:` and follows the spec's description of the corresponding stage
(count §4.2, scan §4.3, scatter §4.4, single-pass §4.5, orchestrator
§4.6).  Machine integers are modelled as `Nat`; device buffers are
modelled as Lean lists holding the buffer contents in index order.
-/

namespace RadixSort

/-- From the header: `using u32 = uint32_t;` — keys and values are 32-bit
unsigned integers, so the key width is 32 bits. -/
def keyWidth : Nat := 32

/-- From the spec §3: the digit window `[startBit, endBit)` must satisfy
`0 ≤ startBit < endBit ≤ keyWidth` (the `0 ≤` part is automatic on `Nat`). -/
def validDigitWindow (startBit endBit : Nat) : Prop :=
  startBit < endBit ∧ endBit ≤ keyWidth

instance (s e : Nat) : Decidable (validDigitWindow s e) := by
  unfold validDigitWindow; infer_instance

/-- Modelled from the spec (§3, §4.2, glossary): the digit of a key for the
window `[s, e)` is the numeric value of bits `[s, e)` of its binary
representation: shift right by `s`, keep `e - s` bits. -/
def extractDigitWindow (s e k : Nat) : Nat :=
  (k >>> s) % 2 ^ (e - s)

/-- From the spec §3 / design note: the window is split into fixed-width
8-bit digit slices (256 buckets per pass). -/
def digitWidth : Nat := 8

/-- Modelled from the spec (header comment on `exclusiveScanCpu`, §4.3
host fallback): a sequential exclusive prefix scan carrying a running
accumulator, as a CPU loop over the histogram would compute it.  The
host↔device round trip of the real routine moves data only. -/
def exclScanAux (acc : Nat) : List Nat → List Nat
  | [] => []
  | x :: xs => acc :: exclScanAux (acc + x) xs

/-- Modelled from the spec: `RadixSort::exclusiveScanCpu`, the host
fallback scan (correctness oracle), missing from the source tree. -/
def exclusiveScanCpu (l : List Nat) : List Nat :=
  exclScanAux 0 l

/-- Modelled from the spec (§4.3 single-workgroup scan): one step of the
cooperative Hillis–Steele scan a single workgroup performs: every lane
`i` adds the value `stride` positions to its left, if any. -/
def hsStep (stride : Nat) (l : List Nat) : List Nat :=
  (List.range l.length).map fun i =>
    l.getD i 0 + if stride ≤ i then l.getD (i - stride) 0 else 0

/-- Modelled from the spec (§4.3): `k` doubling rounds of the cooperative
scan, with strides `1, 2, 4, …, 2^(k-1)`. -/
def hsIter (l : List Nat) : Nat → List Nat
  | 0 => l
  | k + 1 => hsStep (2 ^ k) (hsIter l k)

/-- Modelled from the spec (§4.3 single-workgroup scan): the block runs
doubling rounds until the stride covers the whole histogram (an inclusive
scan), then shifts the result right by one slot, inserting `0`, to obtain
the exclusive scan. -/
def scanSingleWG (l : List Nat) : List Nat :=
  (0 :: hsIter l (Nat.clog 2 l.length)).take l.length

/-- Modelled from the spec (§4.2/§4.3): the per-block decomposition of a
device buffer into contiguous chunks of `B` elements, the last chunk
possibly partial; `(l.length + B - 1) / B` blocks cover the buffer. -/
def chunksOf (B : Nat) (l : List α) : List (List α) :=
  (List.range ((l.length + B - 1) / B)).map fun k => (l.drop (k * B)).take B

/-- Modelled from the spec (§4.3 parallel multi-block scan): each block
computes a local exclusive scan of its chunk; block-level totals are
aggregated into a running global offset that seeds each block's scan. -/
def scanParallel (B : Nat) (l : List Nat) : List Nat :=
  (List.zipWith (fun base c => exclScanAux base c)
    (exclScanAux 0 ((chunksOf B l).map List.sum)) (chunksOf B l)).flatten

/-- From the header: the `ScanAlgo` enum listing the three prefix-scan
algorithm choices. -/
inductive ScanAlgo
  | SCAN_CPU
  | SCAN_GPU_SINGLE_WG
  | SCAN_GPU_PARALLEL
deriving DecidableEq, Repr

/-- From the header: `constexpr static auto selectedScanAlgo{ ScanAlgo::SCAN_GPU_PARALLEL };`
— a compile-time constant, not selectable by any public operation. -/
def selectedScanAlgo : ScanAlgo := ScanAlgo.SCAN_GPU_PARALLEL

/-- Modelled from the spec (§4.3): the scan routine dispatched for a given
algorithm choice.  `B` is the chunk size used by the multi-block scan
(derived from the device configuration); the other two algorithms ignore
it. -/
def scanImpl (algo : ScanAlgo) (B : Nat) (l : List Nat) : List Nat :=
  match algo with
  | ScanAlgo.SCAN_CPU => exclusiveScanCpu l
  | ScanAlgo.SCAN_GPU_SINGLE_WG => scanSingleWG l
  | ScanAlgo.SCAN_GPU_PARALLEL => scanParallel B l

/-- Modelled from the spec (§4.1/§4.2): the number of blocks needed to
cover `n` elements with `B` threads of work per block — the last block
handles a partial chunk. -/
def numBlocks (B n : Nat) : Nat :=
  (n + B - 1) / B

/-- Modelled from the spec (§4.2 count stage): block `k` scans its
contiguous chunk of the input and counts the elements whose digit equals
`b` — the `(bucket, block)` cell of the histogram.  `d` is the composed
digit function (window extraction applied to the element's key). -/
def blockCount (d : α → Nat) (B : Nat) (xs : List α) (b k : Nat) : Nat :=
  ((xs.drop (k * B)).take B).countP fun x => d x == b

/-- Modelled from the spec (§4.2/§4.3): the flattened bucket-major
`(bucket, block)` histogram table written by the count kernel: bucket 0's
per-block counts first, then bucket 1's, and so on. -/
def countTable (d : α → Nat) (m B : Nat) (xs : List α) : List Nat :=
  (List.range m).flatMap fun b =>
    (List.range (numBlocks B xs.length)).map fun k => blockCount d B xs b k

/-- Modelled from the spec (§4.3): the offset table of one pass — the
exclusive prefix scan of the flattened histogram, computed by the
compile-time-selected scan algorithm (`selectedScanAlgo`). -/
def passOffsets (d : α → Nat) (m B Bscan : Nat) (xs : List α) : List Nat :=
  scanImpl selectedScanAlgo Bscan (countTable d m B xs)

/-- Modelled from the spec (§4.4 scatter stage): an element's rank within
its block — the number of earlier elements of the same block with the
same digit, recomputed by traversing the block exactly as counting did. -/
def localRank [Inhabited α] (d : α → Nat) (B : Nat) (xs : List α) (p : Nat) : Nat :=
  ((xs.drop (p / B * B)).take (p % B)).countP fun x => d x == d (xs.getD p default)

/-- Modelled from the spec (§4.4 scatter stage): the destination index of
the element at position `p`: the global offset of its `(digit, block)`
cell plus its rank within its block. -/
def destIndex [Inhabited α] (d : α → Nat) (m B Bscan : Nat) (xs : List α) (p : Nat) : Nat :=
  (passOffsets d m B Bscan xs).getD
      (d (xs.getD p default) * numBlocks B xs.length + p / B) 0
    + localRank d B xs p

/-- Modelled from the spec (§4.4): the destination buffer after a batch of
scatter writes `(index, element)`, applied to the buffer's previous
contents (a write beyond the buffer length is out of bounds and models as
a no-op). -/
def writeAll (ws : List (Nat × α)) (a : List α) : List α :=
  ws.foldl (fun acc w => acc.set w.1 w.2) a

/-- Modelled from the spec (§4.2–§4.4): one count → scan → scatter pass
over digit function `d` with `m` buckets: every element of the source
`xs` is written at its computed destination index in the destination
buffer `dst0`. -/
def radixPass [Inhabited α] (d : α → Nat) (m B Bscan : Nat) (xs dst0 : List α) : List α :=
  writeAll ((List.range xs.length).map fun p =>
    (destIndex d m B Bscan xs p, xs.getD p default)) dst0

/-- Abstract specification (the spec's words, for comparison with the
pipeline): the stable partition of `xs` by digit — all elements of digit
`0` first, then digit `1`, …, each group in source order.  This is what
"stable sort on the digit" means. -/
def stablePartition (d : α → Nat) (m : Nat) (xs : List α) : List α :=
  (List.range m).flatMap fun b => xs.filter fun x => d x == b

/-- Modelled from the spec (§4.6 orchestrator, multi-pass path): iterate
8-bit digit windows across `[s, e)` (the last window clipped at `e`),
each pass running count → scan → scatter from the current source buffer
into the other buffer, then ping-ponging the two buffers.  Returns the
buffer holding the result (the final copy for an odd pass count moves
this very content into the caller's buffer). -/
def multiPassGo (B Bscan : Nat) (kf : α → Nat) [Inhabited α] (s e : Nat)
    (cur other : List α) : List α :=
  if _h : s < e then
    multiPassGo B Bscan kf (s + min digitWidth (e - s)) e
      (radixPass (fun x => extractDigitWindow s (s + min digitWidth (e - s)) (kf x))
        (2 ^ min digitWidth (e - s)) B Bscan cur other) cur
  else cur
termination_by e - s
decreasing_by simp only [digitWidth]; omega

/-- Modelled from the spec (§3): the number of digit passes of the
multi-pass path. -/
def numPasses (s e : Nat) : Nat :=
  (e - s + digitWidth - 1) / digitWidth

/-- Modelled from the spec (§4.5/§4.6): `RadixSort::sort1pass` — the fused
single-launch path.  The decoupled look-back accumulates, per bucket, the
same running offsets the count/scan/scatter passes would, so its
functional content is a single pass whose digit is the whole requested
window (the lock-free publish/consume handshake is a scheduling device,
not a change of the computed function). -/
def sort1pass (B Bscan : Nat) (kf : α → Nat) [Inhabited α] (s e : Nat)
    (src dst0 : List α) : List α :=
  radixPass (fun x => extractDigitWindow s e (kf x)) (2 ^ (e - s)) B Bscan src dst0

/-- The observable outcome of one `sort` call: the destination buffer's
contents and the number of kernel launches enqueued. -/
structure SortResult (α : Type) where
  dst : List α
  launches : Nat
deriving Repr, DecidableEq

/-- Modelled from the spec (§4.6 orchestrator, §8 boundary scenarios):
`RadixSort::sort`.  `n = 0` launches nothing and leaves the destination
untouched; `n` at or below the single-pass threshold `thr` delegates the
whole sort to `sort1pass` in one launch; otherwise the multi-pass path
runs count, scan and sort kernels for each digit pass.  `kf` extracts the
key from an element (`id` for the key-only entry point, `Prod.fst` for
the key-value entry point — both funnel into this one implementation). -/
def sort (B Bscan thr : Nat) (kf : α → Nat) [Inhabited α] (s e : Nat)
    (src dst0 : List α) : SortResult α :=
  if src.length = 0 then ⟨dst0, 0⟩
  else if src.length ≤ thr then ⟨sort1pass B Bscan kf s e src dst0, 1⟩
  else ⟨multiPassGo B Bscan kf s e src dst0, 3 * numPasses s e⟩

/-- From the header: the `Flag` enum of the diagnostic logging toggle
(`setFlag`), stored in `m_flags`. -/
inductive Flag
  | NO_LOG
  | LOG
deriving DecidableEq, Repr

/-- Modelled from the spec (§6): diagnostic lines are emitted only when
the logging flag is set. -/
def logIf (flag : Flag) (lines : List String) : List String :=
  match flag with
  | Flag.LOG => lines
  | Flag.NO_LOG => []

/-- Modelled from the spec (§4.6 and §6): the multi-pass loop with the
diagnostic logging toggle threaded through — each pass appends a timing
line when the flag is `LOG` and nothing when it is `NO_LOG`. -/
def multiPassGoLog (B Bscan : Nat) (flag : Flag) (kf : α → Nat) [Inhabited α]
    (s e : Nat) (cur other : List α) (log : List String) : List α × List String :=
  if _h : s < e then
    multiPassGoLog B Bscan flag kf (s + min digitWidth (e - s)) e
      (radixPass (fun x => extractDigitWindow s (s + min digitWidth (e - s)) (kf x))
        (2 ^ min digitWidth (e - s)) B Bscan cur other) cur
      (log ++ logIf flag ["radix sort pass at bit " ++ toString s])
  else (cur, log)
termination_by e - s
decreasing_by simp only [digitWidth]; omega

/-- Modelled from the spec (§4.6, §6): `sort` with the diagnostic logging
state: returns the sort outcome together with the diagnostic lines the
call produced for the given flag value. -/
def sortLog (B Bscan thr : Nat) (flag : Flag) (kf : α → Nat) [Inhabited α]
    (s e : Nat) (src dst0 : List α) : SortResult α × List String :=
  if src.length = 0 then
    (⟨dst0, 0⟩, logIf flag ["sort skipped: n = 0"])
  else if src.length ≤ thr then
    (⟨sort1pass B Bscan kf s e src dst0, 1⟩, logIf flag ["single pass sort"])
  else
    let r := multiPassGoLog B Bscan flag kf s e src dst0 (logIf flag ["multi pass sort"])
    (⟨r.1, 3 * numPasses s e⟩, r.2)

/-- Modelled from the spec (§7 error handling): the caller-facing guard of
a sort call — an invalid digit window fails fast with a descriptive
error instead of running any kernel. -/
def sortChecked (B Bscan thr : Nat) (kf : α → Nat) [Inhabited α] (s e : Nat)
    (src dst0 : List α) : Except String (SortResult α) :=
  if validDigitWindow s e then
    Except.ok (sort B Bscan thr kf s e src dst0)
  else
    Except.error "RadixSort: invalid digit window: require 0 <= startBit < endBit <= 32"

/-- Proof helper: the sum of the buffer segment `[lo, hi)`. -/
def segSum (l : List Nat) (lo hi : Nat) : Nat :=
  ((l.drop lo).take (hi - lo)).sum

/-- Proof helper: the index the element at position `p` receives in a
stable partition of `xs` by digit `d`: the number of elements with a
strictly smaller digit plus the number of earlier elements with the same
digit. -/
def stableRank [Inhabited α] (d : α → Nat) (xs : List α) (p : Nat) : Nat :=
  xs.countP (fun x => decide (d x < d (xs.getD p default)))
    + (xs.take p).countP fun x => d x == d (xs.getD p default)

/-! ### The three scan algorithms compute the same exclusive prefix sum -/

theorem length_exclScanAux (l : List Nat) : ∀ acc, (exclScanAux acc l).length = l.length := by
  induction l with
  | nil => intro acc; rfl
  | cons x xs ih => intro acc; simp [exclScanAux, ih]

theorem exclScanAux_getElem (l : List Nat) :
    ∀ (acc i : Nat) (h : i < (exclScanAux acc l).length),
      (exclScanAux acc l)[i] = acc + (l.take i).sum := by
  induction l with
  | nil => intro acc i h; simp [exclScanAux] at h
  | cons x xs ih =>
    intro acc i h
    match i with
    | 0 => simp [exclScanAux]
    | i + 1 =>
      simp only [exclScanAux, List.getElem_cons_succ]
      rw [ih (acc + x) i (by simpa [exclScanAux, length_exclScanAux] using h)]
      simp [List.take_succ_cons, Nat.add_assoc]

theorem exclScanAux_append (a : List Nat) :
    ∀ (b : List Nat) (acc : Nat),
      exclScanAux acc (a ++ b) = exclScanAux acc a ++ exclScanAux (acc + a.sum) b := by
  induction a with
  | nil => intro b acc; simp [exclScanAux]
  | cons x xs ih =>
    intro b acc
    rw [List.cons_append]
    show acc :: exclScanAux (acc + x) (xs ++ b) = _
    rw [ih b (acc + x)]
    simp [exclScanAux, List.sum_cons, Nat.add_assoc]

theorem zipWith_exclScanAux_flatten (ch : List (List Nat)) :
    ∀ acc : Nat,
      (List.zipWith (fun base c => exclScanAux base c)
        (exclScanAux acc (ch.map List.sum)) ch).flatten
      = exclScanAux acc ch.flatten := by
  induction ch with
  | nil => intro acc; rfl
  | cons c t ih =>
    intro acc
    simp only [List.map_cons, exclScanAux, List.zipWith_cons_cons, List.flatten_cons,
      List.flatten, ih (acc + c.sum)]
    rw [exclScanAux_append]

theorem le_numBlocks_mul (B n : Nat) (hB : 0 < B) : n ≤ numBlocks B n * B := by
  unfold numBlocks
  have h := Nat.div_add_mod (n + B - 1) B
  have h2 : (n + B - 1) / B * B = B * ((n + B - 1) / B) := Nat.mul_comm _ _
  have h3 : (n + B - 1) % B < B := Nat.mod_lt _ hB
  omega

theorem flatten_range_chunks (l : List α) (B : Nat) :
    ∀ j : Nat, ((List.range j).map fun k => (l.drop (k * B)).take B).flatten
      = l.take (j * B) := by
  intro j
  induction j with
  | zero => simp
  | succ j ih =>
    rw [List.range_succ, List.map_append, List.flatten_append, ih]
    simp only [List.map_cons, List.map_nil, List.flatten_cons, List.flatten_nil,
      List.append_nil]
    rw [Nat.succ_mul, List.take_add]

theorem flatten_chunksOf (B : Nat) (l : List α) (hB : 0 < B) :
    (chunksOf B l).flatten = l := by
  unfold chunksOf
  rw [flatten_range_chunks]
  exact List.take_of_length_le (le_numBlocks_mul B l.length hB)

theorem scanParallel_eq_cpu (B : Nat) (l : List Nat) (hB : 0 < B) :
    scanParallel B l = exclusiveScanCpu l := by
  unfold scanParallel exclusiveScanCpu
  rw [zipWith_exclScanAux_flatten, flatten_chunksOf B l hB]

theorem length_hsStep (stride : Nat) (l : List Nat) : (hsStep stride l).length = l.length := by
  simp [hsStep]

theorem length_hsIter (l : List Nat) : ∀ k, (hsIter l k).length = l.length := by
  intro k
  induction k with
  | zero => rfl
  | succ k ih => simp [hsIter, length_hsStep, ih]

theorem segSum_split (l : List Nat) (lo mid hi : Nat) (h1 : lo ≤ mid) (h2 : mid ≤ hi) :
    segSum l lo mid + segSum l mid hi = segSum l lo hi := by
  unfold segSum
  rw [← List.sum_append]
  congr 1
  have he : hi - lo = (mid - lo) + (hi - mid) := by omega
  rw [he, List.take_add, List.drop_drop]
  have he2 : lo + (mid - lo) = mid := by omega
  rw [he2]

theorem hsIter_getD (l : List Nat) :
    ∀ (k i : Nat), i < l.length →
      (hsIter l k).getD i 0 = segSum l (i + 1 - 2 ^ k) (i + 1) := by
  intro k
  induction k with
  | zero =>
    intro i hi
    show l.getD i 0 = segSum l (i + 1 - 2 ^ 0) (i + 1)
    rw [List.getD_eq_getElem l 0 hi]
    unfold segSum
    have h1 : i + 1 - 2 ^ 0 = i := by simp
    have h2 : i + 1 - i = 1 := by omega
    rw [h1, h2, List.drop_eq_getElem_cons hi]
    have h3 : List.take 1 (l[i] :: List.drop (i + 1) l) = [l[i]] := rfl
    rw [h3, List.sum_cons, List.sum_nil, Nat.add_zero]
  | succ k ih =>
    intro i hi
    have hlen : (hsIter l (k + 1)).length = l.length := length_hsIter l (k + 1)
    have hlen' : (hsIter l k).length = l.length := length_hsIter l k
    have hp : 0 < 2 ^ k := Nat.two_pow_pos k
    have hp1 : 0 < 2 ^ (k + 1) := Nat.two_pow_pos (k + 1)
    have hstep : (hsIter l (k + 1)).getD i 0
        = (hsIter l k).getD i 0
          + if 2 ^ k ≤ i then (hsIter l k).getD (i - 2 ^ k) 0 else 0 := by
      have h1 : i < (hsStep (2 ^ k) (hsIter l k)).length := by
        rw [length_hsStep, hlen']; exact hi
      show (hsStep (2 ^ k) (hsIter l k)).getD i 0 = _
      rw [List.getD_eq_getElem _ 0 h1]
      unfold hsStep
      rw [List.getElem_map, List.getElem_range]
    rw [hstep, ih i hi]
    have hpow : 2 ^ (k + 1) = 2 ^ k + 2 ^ k := by
      rw [Nat.pow_succ]; omega
    by_cases hc : 2 ^ k ≤ i
    · have hi2 : i - 2 ^ k < l.length := by omega
      rw [if_pos hc, ih (i - 2 ^ k) hi2]
      have he1 : i - 2 ^ k + 1 - 2 ^ k = i + 1 - 2 ^ (k + 1) := by omega
      have he2 : i - 2 ^ k + 1 = i + 1 - 2 ^ k := by omega
      rw [he1, he2, Nat.add_comm]
      have hle1 : i + 1 - 2 ^ (k + 1) ≤ i + 1 - 2 ^ k := by omega
      have hle2 : i + 1 - 2 ^ k ≤ i + 1 := by omega
      exact segSum_split l _ _ _ hle1 hle2
    · rw [if_neg hc]
      have he1 : i + 1 - 2 ^ k = 0 := by omega
      have he2 : i + 1 - 2 ^ (k + 1) = 0 := by omega
      rw [he1, he2, Nat.add_zero]

theorem scanSingleWG_eq_cpu (l : List Nat) : scanSingleWG l = exclusiveScanCpu l := by
  unfold scanSingleWG exclusiveScanCpu
  have hcov : l.length ≤ 2 ^ Nat.clog 2 l.length := Nat.le_pow_clog (by omega) _
  apply List.ext_getElem
  · simp [length_hsIter, length_exclScanAux]
  · intro i h1 h2
    rw [List.getElem_take]
    match i with
    | 0 => simp [exclScanAux_getElem]
    | i + 1 =>
      have hi : i < l.length := by
        simp [length_exclScanAux] at h2; omega
      rw [List.getElem_cons_succ]
      have hlen1 : i < (hsIter l (Nat.clog 2 l.length)).length := by
        rw [length_hsIter]
        exact hi
      rw [← List.getD_eq_getElem (hsIter l (Nat.clog 2 l.length)) 0 hlen1]
      rw [hsIter_getD l _ i hi]
      have he : i + 1 - 2 ^ Nat.clog 2 l.length = 0 := by omega
      rw [he, exclScanAux_getElem]
      unfold segSum
      simp

/-! ### Counting helpers -/

theorem countP_or_disjoint (l : List α) (p q : α → Bool)
    (h : ∀ x, ¬(p x = true ∧ q x = true)) :
    l.countP (fun x => p x || q x) = l.countP p + l.countP q := by
  induction l with
  | nil => simp
  | cons x t ih =>
    simp only [List.countP_cons, ih]
    cases hp : p x <;> cases hq : q x
    · simp
    · simp; omega
    · simp; omega
    · exact absurd ⟨hp, hq⟩ (h x)

theorem countP_lt_eq_sum_range (d : α → Nat) (l : List α) (c : Nat) :
    l.countP (fun x => decide (d x < c))
      = ((List.range c).map fun b => l.countP fun x => d x == b).sum := by
  induction c with
  | zero => simp
  | succ c ih =>
    rw [List.range_succ, List.map_append, List.sum_append]
    simp only [List.map_cons, List.map_nil, List.sum_cons, List.sum_nil]
    rw [← ih]
    have hcg : l.countP (fun x => decide (d x < c + 1))
        = l.countP (fun x => decide (d x < c) || (d x == c)) := by
      apply List.countP_congr
      intro x _
      simp [Nat.lt_succ_iff_lt_or_eq]
    rw [hcg, countP_or_disjoint]
    · omega
    · intro x hx
      obtain ⟨h1, h2⟩ := hx
      simp at h1 h2
      omega

theorem sum_range_chunk_counts (l : List α) (q : α → Bool) (B j : Nat) :
    ((List.range j).map fun k => ((l.drop (k * B)).take B).countP q).sum
      = (l.take (j * B)).countP q := by
  have h1 : ((List.range j).map fun k => ((l.drop (k * B)).take B).countP q)
      = ((List.range j).map fun k => (l.drop (k * B)).take B).map (List.countP q) := by
    rw [List.map_map]
    rfl
  rw [h1, ← List.countP_flatten, flatten_range_chunks]

theorem countP_take_le (q : α → Bool) (l : List α) (a : Nat) :
    (l.take a).countP q ≤ l.countP q := by
  conv_rhs => rw [← List.take_append_drop a l]
  rw [List.countP_append]
  omega

theorem countP_take_mono (q : α → Bool) (l : List α) {a b : Nat} (h : a ≤ b) :
    (l.take a).countP q ≤ (l.take b).countP q := by
  have h1 : l.take a = (l.take b).take a := by
    rw [List.take_take, Nat.min_eq_left h]
  rw [h1]
  exact countP_take_le q (l.take b) a

theorem countP_take_succ [Inhabited α] (q : α → Bool) (l : List α) (p : Nat)
    (hp : p < l.length) :
    (l.take (p + 1)).countP q
      = (l.take p).countP q + if q (l.getD p default) then 1 else 0 := by
  rw [List.take_succ]
  have h1 : l[p]? = some (l.getD p default) := by
    rw [List.getElem?_eq_getElem hp, List.getD_eq_getElem l default hp]
  rw [h1]
  simp [List.countP_append, List.countP_cons]

theorem countP_take_lt [Inhabited α] (q : α → Bool) (l : List α) (p : Nat)
    (hp : p < l.length) (hq : q (l.getD p default) = true) :
    (l.take p).countP q < l.countP q := by
  have h1 : (l.take (p + 1)).countP q = (l.take p).countP q + 1 := by
    rw [countP_take_succ q l p hp, hq]
    simp
  have h2 : (l.take (p + 1)).countP q ≤ l.countP q := countP_take_le q l (p + 1)
  omega

theorem sum_map_const_range (m K : Nat) : ((List.range m).map fun _ => K).sum = m * K := by
  induction m with
  | zero => simp
  | succ m ih =>
    rw [List.range_succ, List.map_append, List.sum_append]
    simp [ih, Nat.succ_mul]

theorem length_flatMap_mapRange (j K : Nat) (g : Nat → Nat → Nat) :
    ((List.range j).flatMap fun b => (List.range K).map fun k => g b k).length
      = j * K := by
  rw [List.flatMap_def, List.length_flatten, List.map_map]
  have h1 : (List.range j).map
        (List.length ∘ fun b => (List.range K).map fun k => g b k)
      = (List.range j).map fun _ => K := by
    apply List.map_congr_left
    intro b _
    simp [Function.comp]
  rw [h1, sum_map_const_range]

/-! ### The offset table realizes the stable rank -/

theorem length_countTable (d : α → Nat) (m B : Nat) (xs : List α) :
    (countTable d m B xs).length = m * numBlocks B xs.length := by
  unfold countTable
  exact length_flatMap_mapRange m (numBlocks B xs.length) fun b k => blockCount d B xs b k

theorem sum_flatMap_bucket_counts (d : α → Nat) (B : Nat) (xs : List α)
    (hB : 0 < B) (j : Nat) :
    (((List.range j).flatMap fun b =>
        (List.range (numBlocks B xs.length)).map fun k => blockCount d B xs b k)).sum
      = ((List.range j).map fun b => xs.countP fun x => d x == b).sum := by
  rw [List.flatMap_def, List.sum_flatten, List.map_map]
  congr 1
  apply List.map_congr_left
  intro b _
  show (((List.range (numBlocks B xs.length)).map fun k => blockCount d B xs b k)).sum = _
  unfold blockCount
  rw [sum_range_chunk_counts]
  rw [List.take_of_length_le (le_numBlocks_mul B xs.length hB)]

theorem take_countTable_sum (d : α → Nat) (m B : Nat) (xs : List α)
    (b k : Nat) (hB : 0 < B) (hb : b < m) (hk : k ≤ numBlocks B xs.length) :
    ((countTable d m B xs).take (b * numBlocks B xs.length + k)).sum
      = ((List.range b).map fun b' => xs.countP fun x => d x == b').sum
        + ((List.range k).map fun k' => blockCount d B xs b k').sum := by
  have hrange : List.range m = List.range b ++ (List.range (m - b)).map (b + ·) := by
    rw [← List.range_add]
    congr 1
    omega
  unfold countTable
  rw [hrange, List.flatMap_append]
  have hflen : ((List.range b).flatMap fun b' =>
      (List.range (numBlocks B xs.length)).map fun k' => blockCount d B xs b' k').length
      = b * numBlocks B xs.length :=
    length_flatMap_mapRange b (numBlocks B xs.length) fun b' k' => blockCount d B xs b' k'
  rw [← hflen, List.take_append, List.sum_append]
  congr 1
  · exact sum_flatMap_bucket_counts d B xs hB b
  · have hmb : m - b = (m - b - 1) + 1 := by omega
    rw [hmb, List.range_succ_eq_map, List.map_cons, List.flatMap_cons, Nat.add_zero]
    rw [List.take_append_of_le_length (by simp [hk])]
    rw [← List.map_take, List.take_range, Nat.min_eq_left hk]

theorem div_lt_numBlocks (p n B : Nat) (hB : 0 < B) (hp : p < n) :
    p / B < numBlocks B n := by
  by_contra hcon
  have h1 : numBlocks B n ≤ p / B := by omega
  have h2 : numBlocks B n * B ≤ p / B * B := Nat.mul_le_mul_right B h1
  have h3 : p / B * B ≤ p := Nat.div_mul_le_self p B
  have h4 : n ≤ numBlocks B n * B := le_numBlocks_mul B n hB
  omega

theorem countP_take_split_blocks [Inhabited α] (d : α → Nat) (B : Nat) (xs : List α)
    (p : Nat) :
    (xs.take p).countP (fun x => d x == d (xs.getD p default))
      = ((List.range (p / B)).map fun k' =>
          blockCount d B xs (d (xs.getD p default)) k').sum
        + localRank d B xs p := by
  have hmul : p / B * B = B * (p / B) := Nat.mul_comm _ _
  have hdm := Nat.div_add_mod p B
  have hmod : p / B * B + p % B = p := by omega
  have h1 : xs.take p = xs.take (p / B * B) ++ (xs.drop (p / B * B)).take (p % B) := by
    conv_lhs => rw [← hmod]
    exact List.take_add xs _ _
  rw [h1, List.countP_append]
  congr 1
  unfold blockCount
  rw [sum_range_chunk_counts]

theorem destIndex_eq_stableRank [Inhabited α] (d : α → Nat) (m B Bscan : Nat)
    (xs : List α) (p : Nat) (hB : 0 < B) (hBs : 0 < Bscan)
    (hd : ∀ x ∈ xs, d x < m) (hp : p < xs.length) :
    destIndex d m B Bscan xs p = stableRank d xs p := by
  have hdpm : d (xs.getD p default) < m := by
    apply hd
    rw [List.getD_eq_getElem xs default hp]
    exact List.getElem_mem hp
  have hkp : p / B < numBlocks B xs.length := div_lt_numBlocks p xs.length B hB hp
  have hoff : passOffsets d m B Bscan xs = exclScanAux 0 (countTable d m B xs) := by
    show scanParallel Bscan (countTable d m B xs) = _
    rw [scanParallel_eq_cpu Bscan _ hBs]
    rfl
  have hlen_tbl : (countTable d m B xs).length
      = m * numBlocks B xs.length := length_countTable d m B xs
  have hidx : d (xs.getD p default) * numBlocks B xs.length + p / B
      < m * numBlocks B xs.length := by
    have h1 : d (xs.getD p default) * numBlocks B xs.length + p / B
        < (d (xs.getD p default) + 1) * numBlocks B xs.length := by
      rw [Nat.succ_mul]
      omega
    have h2 : (d (xs.getD p default) + 1) * numBlocks B xs.length
        ≤ m * numBlocks B xs.length := Nat.mul_le_mul_right _ (by omega)
    omega
  have hgd : (passOffsets d m B Bscan xs).getD
      (d (xs.getD p default) * numBlocks B xs.length + p / B) 0
      = ((countTable d m B xs).take
          (d (xs.getD p default) * numBlocks B xs.length + p / B)).sum := by
    rw [hoff]
    rw [List.getD_eq_getElem _ 0 (by rw [length_exclScanAux, hlen_tbl]; exact hidx)]
    rw [exclScanAux_getElem]
    omega
  unfold destIndex
  rw [hgd, take_countTable_sum d m B xs _ _ hB hdpm (Nat.le_of_lt hkp)]
  unfold stableRank
  rw [← countP_lt_eq_sum_range]
  have hsplit := countP_take_split_blocks d B xs p
  omega

/-! ### The stable rank is a bijection onto the stable partition's indices -/

theorem stableRank_lt [Inhabited α] (d : α → Nat) (xs : List α) (p : Nat)
    (hp : p < xs.length) : stableRank d xs p < xs.length := by
  unfold stableRank
  have h1 : (xs.take p).countP (fun x => d x == d (xs.getD p default))
      < xs.countP (fun x => d x == d (xs.getD p default)) := by
    apply countP_take_lt _ xs p hp
    simp
  have hdisj : ∀ x : α, ¬((decide (d x < d (xs.getD p default))) = true
      ∧ (d x == d (xs.getD p default)) = true) := by
    intro x hx
    obtain ⟨ha, hb⟩ := hx
    simp at ha hb
    omega
  have h2 : xs.countP (fun x => decide (d x < d (xs.getD p default)))
      + xs.countP (fun x => d x == d (xs.getD p default)) ≤ xs.length := by
    rw [← countP_or_disjoint xs _ _ hdisj]
    exact List.countP_le_length _
  omega

theorem stableRank_ne_of_lt [Inhabited α] (d : α → Nat) (xs : List α) (p p' : Nat)
    (hp' : p' < xs.length) (hlt : p < p') :
    stableRank d xs p ≠ stableRank d xs p' := by
  have hp : p < xs.length := Nat.lt_trans hlt hp'
  unfold stableRank
  rcases Nat.lt_trichotomy (d (xs.getD p default)) (d (xs.getD p' default)) with hc | hc | hc
  · -- strictly smaller digit: the whole rank interval of p sits below that of p'
    have h1 : (xs.take p).countP (fun x => d x == d (xs.getD p default))
        < xs.countP (fun x => d x == d (xs.getD p default)) := by
      apply countP_take_lt _ xs p hp
      simp
    have hdisj : ∀ x : α, ¬((decide (d x < d (xs.getD p default))) = true
        ∧ (d x == d (xs.getD p default)) = true) := by
      intro x hx
      obtain ⟨ha, hb⟩ := hx
      simp at ha hb
      omega
    have h2 : xs.countP (fun x => decide (d x < d (xs.getD p default)))
        + xs.countP (fun x => d x == d (xs.getD p default))
        ≤ xs.countP (fun x => decide (d x < d (xs.getD p' default))) := by
      rw [← countP_or_disjoint xs _ _ hdisj]
      apply List.countP_mono_left
      intro x _ hx
      simp only [Bool.or_eq_true, decide_eq_true_eq, beq_iff_eq] at hx
      simp only [decide_eq_true_eq]
      omega
    omega
  · -- equal digit: the later element has strictly more equal-digit predecessors
    have hpred : (fun x => d x == d (xs.getD p default))
        = (fun x => d x == d (xs.getD p' default)) := by
      funext x
      rw [hc]
    have hpred2 : (fun x => decide (d x < d (xs.getD p default)))
        = (fun x => decide (d x < d (xs.getD p' default))) := by
      funext x
      rw [hc]
    rw [← hpred, ← hpred2]
    have h1 : (xs.take (p + 1)).countP (fun x => d x == d (xs.getD p default))
        = (xs.take p).countP (fun x => d x == d (xs.getD p default)) + 1 := by
      rw [countP_take_succ _ xs p hp]
      simp [hc]
    have h2 : (xs.take (p + 1)).countP (fun x => d x == d (xs.getD p default))
        ≤ (xs.take p').countP (fun x => d x == d (xs.getD p default)) :=
      countP_take_mono _ xs (by omega)
    omega
  · -- strictly larger digit: symmetric to the first case
    have h1 : (xs.take p').countP (fun x => d x == d (xs.getD p' default))
        < xs.countP (fun x => d x == d (xs.getD p' default)) := by
      apply countP_take_lt _ xs p' hp'
      simp
    have hdisj : ∀ x : α, ¬((decide (d x < d (xs.getD p' default))) = true
        ∧ (d x == d (xs.getD p' default)) = true) := by
      intro x hx
      obtain ⟨ha, hb⟩ := hx
      simp at ha hb
      omega
    have h2 : xs.countP (fun x => decide (d x < d (xs.getD p' default)))
        + xs.countP (fun x => d x == d (xs.getD p' default))
        ≤ xs.countP (fun x => decide (d x < d (xs.getD p default))) := by
      rw [← countP_or_disjoint xs _ _ hdisj]
      apply List.countP_mono_left
      intro x _ hx
      simp only [Bool.or_eq_true, decide_eq_true_eq, beq_iff_eq] at hx
      simp only [decide_eq_true_eq]
      omega
    omega

theorem stableRank_inj [Inhabited α] (d : α → Nat) (xs : List α) (p p' : Nat)
    (hp : p < xs.length) (hp' : p' < xs.length) (hne : p ≠ p') :
    stableRank d xs p ≠ stableRank d xs p' := by
  rcases Nat.lt_or_ge p p' with h | h
  · exact stableRank_ne_of_lt d xs p p' hp' h
  · have h2 : p' < p := by omega
    exact (stableRank_ne_of_lt d xs p' p hp h2).symm

theorem stableRank_surj [Inhabited α] (d : α → Nat) (xs : List α) (j : Nat)
    (hj : j < xs.length) : ∃ p, p < xs.length ∧ stableRank d xs p = j := by
  have hinj : Function.Injective
      (fun p : Fin xs.length => (⟨stableRank d xs p, stableRank_lt d xs p p.isLt⟩ : Fin xs.length)) := by
    intro a b hab
    by_contra hne
    have hne' : (a : Nat) ≠ (b : Nat) := fun h => hne (Fin.ext h)
    exact stableRank_inj d xs a b a.isLt b.isLt hne' (congrArg Fin.val hab)
  have hsurj := Finite.injective_iff_surjective.mp hinj
  obtain ⟨p, hpj⟩ := hsurj ⟨j, hj⟩
  exact ⟨p, p.isLt, congrArg Fin.val hpj⟩

theorem filter_getElem?_countP [Inhabited α] (q : α → Bool) :
    ∀ (l : List α) (p : Nat), p < l.length → q (l.getD p default) = true →
      (l.filter q)[(l.take p).countP q]? = some (l.getD p default) := by
  intro l
  induction l with
  | nil =>
    intro p hp
    simp at hp
  | cons x t ih =>
    intro p hp hq
    match p with
    | 0 =>
      have hq0 : q x = true := hq
      simp [List.filter_cons, hq0]
    | p + 1 =>
      have hp1 : p < t.length := by simpa using hp
      have hq1 : q (t.getD p default) = true := hq
      rw [List.take_succ_cons, List.countP_cons, List.filter_cons]
      cases hqx : q x
      · simpa using ih p hp1 hq1
      · simpa [List.getElem?_cons_succ] using ih p hp1 hq1

theorem stablePartition_getElem? [Inhabited α] (d : α → Nat) (m : Nat) (xs : List α)
    (hd : ∀ x ∈ xs, d x < m) (p : Nat) (hp : p < xs.length) :
    (stablePartition d m xs)[stableRank d xs p]? = some (xs.getD p default) := by
  have hdpm : d (xs.getD p default) < m := by
    apply hd
    rw [List.getD_eq_getElem xs default hp]
    exact List.getElem_mem hp
  have hrange : List.range m
      = List.range (d (xs.getD p default))
        ++ (List.range (m - d (xs.getD p default))).map (d (xs.getD p default) + ·) := by
    rw [← List.range_add]
    congr 1
    omega
  unfold stablePartition
  rw [hrange, List.flatMap_append]
  have hflen : ((List.range (d (xs.getD p default))).flatMap fun b =>
      xs.filter fun x => d x == b).length
      = xs.countP fun x => decide (d x < d (xs.getD p default)) := by
    rw [List.flatMap_def, List.length_flatten, List.map_map]
    have h1 : (List.range (d (xs.getD p default))).map
          (List.length ∘ fun b => xs.filter fun x => d x == b)
        = (List.range (d (xs.getD p default))).map
          fun b => xs.countP fun x => d x == b := by
      apply List.map_congr_left
      intro b _
      simp [Function.comp, List.countP_eq_length_filter]
    rw [h1, ← countP_lt_eq_sum_range]
  have hidx : stableRank d xs p
      = ((List.range (d (xs.getD p default))).flatMap fun b =>
          xs.filter fun x => d x == b).length
        + (xs.take p).countP fun x => d x == d (xs.getD p default) := by
    rw [hflen]
    rfl
  rw [hidx, List.getElem?_append_right (Nat.le_add_right _ _), Nat.add_sub_cancel_left]
  have hmb : m - d (xs.getD p default) = (m - d (xs.getD p default) - 1) + 1 := by omega
  rw [hmb, List.range_succ_eq_map, List.map_cons, List.flatMap_cons, Nat.add_zero]
  have hlt : ((xs.take p).countP fun x => d x == d (xs.getD p default))
      < (xs.filter fun x => d x == d (xs.getD p default)).length := by
    rw [← List.countP_eq_length_filter]
    apply countP_take_lt _ xs p hp
    simp
  rw [List.getElem?_append_left hlt]
  apply filter_getElem?_countP _ xs p hp
  simp

/-! ### Scatter writes with distinct destinations build the stable partition -/

theorem length_writeAll (ws : List (Nat × α)) : ∀ a : List α,
    (writeAll ws a).length = a.length := by
  induction ws with
  | nil => intro a; rfl
  | cons w t ih =>
    intro a
    show (writeAll t (a.set w.1 w.2)).length = a.length
    rw [ih, List.length_set]

theorem writeAll_getElem?_of_not_mem (ws : List (Nat × α)) : ∀ (a : List α) (j : Nat),
    j ∉ ws.map Prod.fst → (writeAll ws a)[j]? = a[j]? := by
  induction ws with
  | nil => intro a j _; rfl
  | cons w t ih =>
    intro a j hj
    rw [List.map_cons, List.mem_cons] at hj
    push_neg at hj
    show (writeAll t (a.set w.1 w.2))[j]? = a[j]?
    rw [ih (a.set w.1 w.2) j hj.2, List.getElem?_set_ne (fun h => hj.1 h.symm)]

theorem writeAll_getElem?_of_mem (ws : List (Nat × α)) : ∀ (a : List α) (j : Nat) (v : α),
    (ws.map Prod.fst).Nodup → (j, v) ∈ ws → j < a.length →
    (writeAll ws a)[j]? = some v := by
  induction ws with
  | nil =>
    intro a j v _ hmem
    simp at hmem
  | cons w t ih =>
    intro a j v hnd hmem hja
    rw [List.map_cons] at hnd
    obtain ⟨hw1, hndt⟩ := List.nodup_cons.mp hnd
    rcases List.mem_cons.mp hmem with heq | hmemt
    · have hw : w = (j, v) := heq.symm
      subst hw
      show (writeAll t (a.set j v))[j]? = some v
      rw [writeAll_getElem?_of_not_mem t (a.set j v) j hw1]
      exact List.getElem?_set_self hja
    · show (writeAll t (a.set w.1 w.2))[j]? = some v
      exact ih (a.set w.1 w.2) j v hndt hmemt (by rw [List.length_set]; exact hja)

theorem length_stablePartition (d : α → Nat) (m : Nat) (xs : List α)
    (hd : ∀ x ∈ xs, d x < m) :
    (stablePartition d m xs).length = xs.length := by
  unfold stablePartition
  rw [List.flatMap_def, List.length_flatten, List.map_map]
  have h1 : (List.range m).map (List.length ∘ fun b => xs.filter fun x => d x == b)
      = (List.range m).map fun b => xs.countP fun x => d x == b := by
    apply List.map_congr_left
    intro b _
    simp [Function.comp, List.countP_eq_length_filter]
  rw [h1, ← countP_lt_eq_sum_range]
  apply List.countP_eq_length.mpr
  intro a ha
  simpa using hd a ha

/-- The central pipeline theorem: one count → scan → scatter pass equals the
stable partition of the source by the pass digit, whenever every digit fits
the bucket count and the destination buffer has the source's length. -/
theorem radixPass_eq_stablePartition [Inhabited α] (d : α → Nat) (m B Bscan : Nat)
    (xs dst0 : List α) (hB : 0 < B) (hBs : 0 < Bscan)
    (hd : ∀ x ∈ xs, d x < m) (hlen : dst0.length = xs.length) :
    radixPass d m B Bscan xs dst0 = stablePartition d m xs := by
  have hSPlen : (stablePartition d m xs).length = xs.length :=
    length_stablePartition d m xs hd
  have hwlen : (radixPass d m B Bscan xs dst0).length = xs.length := by
    unfold radixPass
    rw [length_writeAll, hlen]
  apply List.ext_getElem?
  intro j
  by_cases hj : j < xs.length
  · obtain ⟨p, hp, hrank⟩ := stableRank_surj d xs j hj
    have hmap : ((List.range xs.length).map fun p =>
        (destIndex d m B Bscan xs p, xs.getD p default)).map Prod.fst
        = (List.range xs.length).map fun p => stableRank d xs p := by
      rw [List.map_map]
      apply List.map_congr_left
      intro a ha
      exact destIndex_eq_stableRank d m B Bscan xs a hB hBs hd (List.mem_range.mp ha)
    have hnodup : (((List.range xs.length).map fun p =>
        (destIndex d m B Bscan xs p, xs.getD p default)).map Prod.fst).Nodup := by
      rw [hmap]
      apply List.Nodup.map_on
      · intro a ha b hb hab
        by_contra hne
        exact stableRank_inj d xs a b (List.mem_range.mp ha) (List.mem_range.mp hb) hne hab
      · exact List.nodup_range xs.length
    have hmem : (j, xs.getD p default) ∈ (List.range xs.length).map fun p' =>
        (destIndex d m B Bscan xs p', xs.getD p' default) := by
      apply List.mem_map.mpr
      refine ⟨p, List.mem_range.mpr hp, ?_⟩
      rw [destIndex_eq_stableRank d m B Bscan xs p hB hBs hd hp, hrank]
    have hW : (radixPass d m B Bscan xs dst0)[j]? = some (xs.getD p default) := by
      unfold radixPass
      exact writeAll_getElem?_of_mem _ dst0 j _ hnodup hmem (by rw [hlen]; exact hj)
    rw [hW, ← hrank]
    exact (stablePartition_getElem? d m xs hd p hp).symm
  · rw [List.getElem?_eq_none (by omega), List.getElem?_eq_none (by omega)]

/-! ### The stable partition: permutation, order, stability -/

theorem filter_or_disjoint_perm (p q : α → Bool) (h : ∀ x, ¬(p x = true ∧ q x = true)) :
    ∀ xs : List α, (xs.filter fun x => p x || q x).Perm (xs.filter p ++ xs.filter q) := by
  intro xs
  induction xs with
  | nil => simp
  | cons x t ih =>
    cases hp : p x <;> cases hq : q x
    · simpa [List.filter_cons, hp, hq] using ih
    · simp only [List.filter_cons, hp, hq, Bool.false_or, if_pos rfl]
      exact (ih.cons x).trans List.perm_middle.symm
    · simp only [List.filter_cons, hp, hq, Bool.true_or, if_pos rfl]
      exact ih.cons x
    · exact absurd ⟨hp, hq⟩ (h x)

theorem stablePartition_succ (d : α → Nat) (m : Nat) (xs : List α) :
    stablePartition d (m + 1) xs
      = stablePartition d m xs ++ xs.filter (fun x => d x == m) := by
  unfold stablePartition
  rw [List.range_succ, List.flatMap_append, List.flatMap_cons, List.flatMap_nil,
    List.append_nil]

theorem filter_lt_perm_stablePartition (d : α → Nat) (xs : List α) (m : Nat) :
    (xs.filter fun x => decide (d x < m)).Perm (stablePartition d m xs) := by
  induction m with
  | zero =>
    have h0 : xs.filter (fun x => decide (d x < 0)) = [] := by
      apply List.filter_eq_nil_iff.mpr
      intro a _
      simp
    rw [h0]
    unfold stablePartition
    simp
  | succ m ih =>
    rw [stablePartition_succ]
    have hcg : xs.filter (fun x => decide (d x < m + 1))
        = xs.filter (fun x => decide (d x < m) || (d x == m)) := by
      apply List.filter_congr
      intro x _
      apply Bool.eq_iff_iff.mpr
      simp [Nat.lt_succ_iff_lt_or_eq]
    rw [hcg]
    have hdisj : ∀ x : α, ¬((decide (d x < m)) = true ∧ (d x == m) = true) := by
      intro x hx
      obtain ⟨ha, hb⟩ := hx
      simp at ha hb
      omega
    exact (filter_or_disjoint_perm _ _ hdisj xs).trans (ih.append_right _)

theorem stablePartition_perm (d : α → Nat) (m : Nat) (xs : List α)
    (hd : ∀ x ∈ xs, d x < m) : (stablePartition d m xs).Perm xs := by
  have h := filter_lt_perm_stablePartition d xs m
  have hself : xs.filter (fun x => decide (d x < m)) = xs :=
    List.filter_eq_self.mpr fun a ha => by simpa using hd a ha
  rw [hself] at h
  exact h.symm

theorem mem_stablePartition (d : α → Nat) (m : Nat) (xs : List α) (x : α)
    (hx : x ∈ stablePartition d m xs) : x ∈ xs ∧ d x < m := by
  unfold stablePartition at hx
  obtain ⟨b, hb, hxb⟩ := List.mem_flatMap.mp hx
  obtain ⟨hxxs, hdx⟩ := List.mem_filter.mp hxb
  refine ⟨hxxs, ?_⟩
  have hdb : d x = b := by simpa using hdx
  rw [hdb]
  exact List.mem_range.mp hb

theorem stablePartition_pairwise (d : α → Nat) (m : Nat) (xs : List α) :
    (stablePartition d m xs).Pairwise fun a b => d a ≤ d b := by
  induction m with
  | zero =>
    unfold stablePartition
    simp
  | succ m ih =>
    rw [stablePartition_succ]
    apply List.pairwise_append.mpr
    refine ⟨ih, ?_, ?_⟩
    · apply List.pairwise_of_forall_mem_list
      intro a ha b hb
      have h1 : d a = m := by simpa using (List.mem_filter.mp ha).2
      have h2 : d b = m := by simpa using (List.mem_filter.mp hb).2
      omega
    · intro a ha b hb
      have h1 : d a < m := (mem_stablePartition d m xs a ha).2
      have h2 : d b = m := by simpa using (List.mem_filter.mp hb).2
      omega

theorem stablePartition_filter_fiber_aux (d : α → Nat) (xs : List α) (v : Nat)
    (m : Nat) :
    (stablePartition d m xs).filter (fun x => d x == v)
      = if v < m then xs.filter (fun x => d x == v) else [] := by
  induction m with
  | zero =>
    unfold stablePartition
    simp
  | succ m ih =>
    rw [stablePartition_succ, List.filter_append, ih]
    by_cases hv : v < m
    · rw [if_pos hv, if_pos (by omega)]
      have h2 : (xs.filter fun x => d x == m).filter (fun x => d x == v) = [] := by
        apply List.filter_eq_nil_iff.mpr
        intro a ha
        have hda : d a = m := by simpa using (List.mem_filter.mp ha).2
        simp [hda]
        omega
      rw [h2, List.append_nil]
    · by_cases hv2 : v = m
      · subst hv2
        rw [if_neg hv, if_pos (by omega), List.nil_append, List.filter_filter]
        apply List.filter_congr
        intro x _
        exact Bool.and_self _
      · rw [if_neg hv, if_neg (by omega), List.nil_append]
        apply List.filter_eq_nil_iff.mpr
        intro a ha
        have hda : d a = m := by simpa using (List.mem_filter.mp ha).2
        simp [hda]
        omega

theorem stablePartition_filter_fiber (d : α → Nat) (m : Nat) (xs : List α)
    (hd : ∀ x ∈ xs, d x < m) (v : Nat) :
    (stablePartition d m xs).filter (fun x => d x == v)
      = xs.filter (fun x => d x == v) := by
  rw [stablePartition_filter_fiber_aux]
  by_cases hv : v < m
  · rw [if_pos hv]
  · rw [if_neg hv]
    symm
    apply List.filter_eq_nil_iff.mpr
    intro a ha
    have hda := hd a ha
    simp
    omega

/-! ### Composing stable partitions: one radix pass per digit composes to the
full digit window -/

theorem range_mul_flatMap (M : Nat) (N : Nat) :
    List.range (M * N)
      = (List.range N).flatMap fun b => (List.range M).map fun a => M * b + a := by
  induction N with
  | zero => simp
  | succ N ih =>
    rw [Nat.mul_succ, List.range_add, ih, List.range_succ, List.flatMap_append,
      List.flatMap_cons, List.flatMap_nil, List.append_nil]

theorem flatMap_congr_left {l : List β} {f g : β → List α}
    (h : ∀ b ∈ l, f b = g b) : l.flatMap f = l.flatMap g := by
  rw [List.flatMap_def, List.flatMap_def, List.map_congr_left h]

theorem filter_pair_eq_filter_combined (f g : α → Nat) (M : Nat) (xs : List α)
    (hf : ∀ x ∈ xs, f x < M) (a b : Nat) (ha : a < M) :
    (xs.filter fun x => f x == a).filter (fun x => g x == b)
      = xs.filter fun x => f x + M * g x == M * b + a := by
  rw [List.filter_filter]
  apply List.filter_congr
  intro x hx
  apply Bool.eq_iff_iff.mpr
  simp only [Bool.and_eq_true, beq_iff_eq]
  constructor
  · intro hgb
    obtain ⟨h1, h2⟩ := hgb
    rw [h1, h2]
    omega
  · intro heq
    have hfx := hf x hx
    have h1 : (f x + M * g x) % M = f x := by
      rw [Nat.add_mul_mod_self_left]
      exact Nat.mod_eq_of_lt hfx
    have h2 : (M * b + a) % M = a := by
      rw [Nat.mul_add_mod]
      exact Nat.mod_eq_of_lt ha
    have hfa : f x = a := by
      rw [← h1, ← h2, heq]
    have hmul : M * g x = M * b := by omega
    have hM : 0 < M := by omega
    exact ⟨Nat.eq_of_mul_eq_mul_left hM hmul, hfa⟩

theorem stablePartition_compose (f g : α → Nat) (M N : Nat) (xs : List α)
    (hf : ∀ x ∈ xs, f x < M) :
    stablePartition g N (stablePartition f M xs)
      = stablePartition (fun x => f x + M * g x) (M * N) xs := by
  unfold stablePartition
  rw [range_mul_flatMap, List.flatMap_assoc]
  apply flatMap_congr_left
  intro b _
  rw [List.filter_flatMap, List.flatMap_map]
  apply flatMap_congr_left
  intro a ha
  exact filter_pair_eq_filter_combined f g M xs hf a b (List.mem_range.mp ha)

theorem extractDigitWindow_compose (s e wd k : Nat) (hwd : wd ≤ e - s) :
    extractDigitWindow s e k
      = extractDigitWindow s (s + wd) k
        + 2 ^ wd * extractDigitWindow (s + wd) e k := by
  unfold extractDigitWindow
  have h1 : e - s = wd + (e - s - wd) := by omega
  have h2 : s + wd - s = wd := by omega
  have h3 : e - (s + wd) = e - s - wd := by omega
  rw [h1, h2, h3, Nat.pow_add]
  rw [Nat.mod_mul]
  congr 2
  rw [Nat.shiftRight_add]
  rw [Nat.shiftRight_eq_div_pow (k >>> s) wd]

theorem extractDigitWindow_lt (s e k : Nat) :
    extractDigitWindow s e k < 2 ^ (e - s) := by
  unfold extractDigitWindow
  exact Nat.mod_lt _ (Nat.two_pow_pos _)

/-! ### The two execution paths both compute the stable sort by the window -/

theorem stablePartition_empty_window (kf : α → Nat) (s e : Nat) (cur : List α)
    (h : e ≤ s) :
    stablePartition (fun x => extractDigitWindow s e (kf x)) (2 ^ (e - s)) cur
      = cur := by
  have h0 : e - s = 0 := by omega
  unfold stablePartition
  rw [h0]
  have h1 : (2 : Nat) ^ 0 = 1 := rfl
  have h2 : List.range 1 = [0] := rfl
  rw [h1, h2, List.flatMap_cons, List.flatMap_nil, List.append_nil]
  apply List.filter_eq_self.mpr
  intro a _
  simp [extractDigitWindow, h0, Nat.mod_one]

theorem stablePartition_nil (d : α → Nat) (m : Nat) :
    stablePartition d m ([] : List α) = [] := by
  unfold stablePartition
  simp

theorem sort1pass_eq_stablePartition (B Bscan : Nat) (kf : α → Nat) [Inhabited α]
    (s e : Nat) (src dst0 : List α) (hB : 0 < B) (hBs : 0 < Bscan)
    (hlen : dst0.length = src.length) :
    sort1pass B Bscan kf s e src dst0
      = stablePartition (fun x => extractDigitWindow s e (kf x)) (2 ^ (e - s)) src := by
  unfold sort1pass
  apply radixPass_eq_stablePartition _ _ _ _ _ _ hB hBs _ hlen
  intro x _
  exact extractDigitWindow_lt s e (kf x)

theorem multiPassGo_eq_stablePartition (B Bscan : Nat) (kf : α → Nat) [Inhabited α]
    (hB : 0 < B) (hBs : 0 < Bscan) :
    ∀ (fuel s e : Nat), e - s ≤ fuel → ∀ (cur other : List α),
      other.length = cur.length →
      multiPassGo B Bscan kf s e cur other
        = stablePartition (fun x => extractDigitWindow s e (kf x)) (2 ^ (e - s)) cur := by
  intro fuel
  induction fuel with
  | zero =>
    intro s e hse cur other _
    have hse0 : ¬ s < e := by omega
    unfold multiPassGo
    rw [dif_neg hse0]
    exact (stablePartition_empty_window kf s e cur (by omega)).symm
  | succ fuel ih =>
    intro s e hse cur other holen
    by_cases h : s < e
    · unfold multiPassGo
      rw [dif_pos h]
      set wd := min digitWidth (e - s) with hwd
      have hwd1 : 1 ≤ wd := by
        rw [hwd]
        simp [digitWidth]
        omega
      have hwdle : wd ≤ e - s := by
        rw [hwd]
        exact Nat.min_le_right _ _
      have hbound : ∀ x ∈ cur, extractDigitWindow s (s + wd) (kf x) < 2 ^ wd := by
        intro x _
        have hx := extractDigitWindow_lt s (s + wd) (kf x)
        rwa [Nat.add_sub_cancel_left] at hx
      have hpass : radixPass (fun x => extractDigitWindow s (s + wd) (kf x))
            (2 ^ wd) B Bscan cur other
          = stablePartition (fun x => extractDigitWindow s (s + wd) (kf x))
            (2 ^ wd) cur :=
        radixPass_eq_stablePartition _ _ _ _ _ _ hB hBs hbound holen
      rw [hpass]
      have hlen2 : cur.length
          = (stablePartition (fun x => extractDigitWindow s (s + wd) (kf x))
              (2 ^ wd) cur).length :=
        (List.Perm.length_eq (stablePartition_perm _ _ _ hbound)).symm
      rw [ih (s + wd) e (by omega) _ cur hlen2]
      rw [stablePartition_compose _ _ _ _ cur hbound]
      have hm : 2 ^ wd * 2 ^ (e - (s + wd)) = 2 ^ (e - s) := by
        rw [← Nat.pow_add]
        congr 1
        omega
      have hfun : (fun x => extractDigitWindow s (s + wd) (kf x)
            + 2 ^ wd * extractDigitWindow (s + wd) e (kf x))
          = fun x => extractDigitWindow s e (kf x) := by
        funext x
        exact (extractDigitWindow_compose s e wd (kf x) hwdle).symm
      rw [hm, hfun]
    · unfold multiPassGo
      rw [dif_neg h]
      exact (stablePartition_empty_window kf s e cur (by omega)).symm

theorem sort1pass_eq_multiPassGo (B Bscan : Nat) (kf : α → Nat) [Inhabited α]
    (s e : Nat) (src dst0 : List α) (hB : 0 < B) (hBs : 0 < Bscan)
    (hlen : dst0.length = src.length) :
    sort1pass B Bscan kf s e src dst0 = multiPassGo B Bscan kf s e src dst0 := by
  rw [sort1pass_eq_stablePartition B Bscan kf s e src dst0 hB hBs hlen,
    multiPassGo_eq_stablePartition B Bscan kf hB hBs (e - s) s e (Nat.le_refl _)
      src dst0 hlen]

theorem sort_dst_eq_stablePartition (B Bscan thr : Nat) (kf : α → Nat) [Inhabited α]
    (s e : Nat) (src dst0 : List α) (hB : 0 < B) (hBs : 0 < Bscan)
    (hlen : dst0.length = src.length) :
    (sort B Bscan thr kf s e src dst0).dst
      = stablePartition (fun x => extractDigitWindow s e (kf x)) (2 ^ (e - s)) src := by
  unfold sort
  by_cases h0 : src.length = 0
  · rw [if_pos h0]
    have hsrc : src = [] := List.length_eq_zero.mp h0
    have hdst : dst0 = [] := List.length_eq_zero.mp (by rw [hlen, h0])
    subst hsrc
    subst hdst
    rw [stablePartition_nil]
  · rw [if_neg h0]
    by_cases h1 : src.length ≤ thr
    · rw [if_pos h1]
      exact sort1pass_eq_stablePartition B Bscan kf s e src dst0 hB hBs hlen
    · rw [if_neg h1]
      exact multiPassGo_eq_stablePartition B Bscan kf hB hBs (e - s) s e
        (Nat.le_refl _) src dst0 hlen

/-! ### The logging flag does not feed back into the sorted data -/

theorem multiPassGoLog_fst (B Bscan : Nat) (flag : Flag) (kf : α → Nat) [Inhabited α] :
    ∀ (fuel s e : Nat), e - s ≤ fuel → ∀ (cur other : List α) (log : List String),
      (multiPassGoLog B Bscan flag kf s e cur other log).1
        = multiPassGo B Bscan kf s e cur other := by
  intro fuel
  induction fuel with
  | zero =>
    intro s e hse cur other log
    have h : ¬ s < e := by omega
    unfold multiPassGoLog multiPassGo
    rw [dif_neg h, dif_neg h]
  | succ fuel ih =>
    intro s e hse cur other log
    by_cases h : s < e
    · unfold multiPassGoLog multiPassGo
      rw [dif_pos h, dif_pos h]
      have hwd1 : 1 ≤ min digitWidth (e - s) := by
        simp [digitWidth]
        omega
      exact ih _ e (by omega) _ cur _
    · unfold multiPassGoLog multiPassGo
      rw [dif_neg h, dif_neg h]

/-! ### Claim theorems -/

/-- C1: for every sort call (key-only with `kf = id`, key-value with
`kf = Prod.fst`) on an input of any length, the multiset of entries held
in the destination buffer after the sort equals the multiset held in the
source buffer before it — no element is dropped and none is duplicated. -/
theorem claim_C1_sort_permutation {α : Type} [Inhabited α] (kf : α → Nat)
    (B Bscan thr s e : Nat) (src dst0 : List α)
    (hB : 0 < B) (hBs : 0 < Bscan) (hlen : dst0.length = src.length) :
    ((sort B Bscan thr kf s e src dst0).dst : Multiset α) = (src : Multiset α) := by
  rw [sort_dst_eq_stablePartition B Bscan thr kf s e src dst0 hB hBs hlen]
  exact Multiset.coe_eq_coe.mpr
    (stablePartition_perm _ _ _ fun x _ => extractDigitWindow_lt s e (kf x))

theorem claim_C1_witness :
    (0 : Nat) < 2 ∧ (0 : Nat) < 2
      ∧ ([0, 0, 0, 0] : List Nat).length = ([5, 3, 7, 3] : List Nat).length
      ∧ ((sort 2 2 2 id 0 3 [5, 3, 7, 3] [0, 0, 0, 0]).dst : Multiset Nat)
        = ([5, 3, 7, 3] : Multiset Nat) :=
  ⟨by decide, by decide, by decide,
    claim_C1_sort_permutation id 2 2 2 0 3 [5, 3, 7, 3] [0, 0, 0, 0]
      (by decide) (by decide) (by decide)⟩

/-- C2: after any sort call with digit window `[startBit, endBit)`, the
value of bits `[startBit, endBit)` extracted from successive destination
keys is non-decreasing across the whole destination array. -/
theorem claim_C2_sort_order {α : Type} [Inhabited α] (kf : α → Nat)
    (B Bscan thr s e : Nat) (src dst0 : List α)
    (hB : 0 < B) (hBs : 0 < Bscan) (hlen : dst0.length = src.length) :
    List.Sorted (· ≤ ·)
      (((sort B Bscan thr kf s e src dst0).dst).map
        fun x => extractDigitWindow s e (kf x)) := by
  rw [sort_dst_eq_stablePartition B Bscan thr kf s e src dst0 hB hBs hlen]
  exact List.pairwise_map.mpr (stablePartition_pairwise _ _ _)

theorem claim_C2_witness :
    (0 : Nat) < 2 ∧ (0 : Nat) < 2
      ∧ ([0, 0, 0, 0] : List Nat).length = ([5, 3, 7, 3] : List Nat).length
      ∧ List.Sorted (· ≤ ·)
          (((sort 2 2 2 id 0 3 [5, 3, 7, 3] [0, 0, 0, 0]).dst).map
            fun x => extractDigitWindow 0 3 (id x)) :=
  ⟨by decide, by decide, by decide,
    claim_C2_sort_order id 2 2 2 0 3 [5, 3, 7, 3] [0, 0, 0, 0]
      (by decide) (by decide) (by decide)⟩

/-- C3: the sort is stable.  Stability is stated through the fibers of the
digit-window value: for every value `v`, the subsequence of entries whose
extracted digit equals `v` (with their attached values, in the key-value
instantiation) is exactly the same, in the same order, in the destination
as in the source.  The first conjunct is the multi-pass path, the second
the single-pass path (so the two paths behave identically), and the third
is one individual count → scan → scatter pass over an arbitrary digit
function. -/
theorem claim_C3_sort_stability {α : Type} [Inhabited α] (kf d : α → Nat)
    (B Bscan m s e : Nat) (src dst0 xs pdst : List α)
    (hB : 0 < B) (hBs : 0 < Bscan) (hlen : dst0.length = src.length)
    (hplen : pdst.length = xs.length) (hd : ∀ x ∈ xs, d x < m) :
    (∀ v, (multiPassGo B Bscan kf s e src dst0).filter
        (fun x => extractDigitWindow s e (kf x) == v)
      = src.filter fun x => extractDigitWindow s e (kf x) == v)
    ∧ (∀ v, (sort1pass B Bscan kf s e src dst0).filter
        (fun x => extractDigitWindow s e (kf x) == v)
      = src.filter fun x => extractDigitWindow s e (kf x) == v)
    ∧ (∀ v, (radixPass d m B Bscan xs pdst).filter (fun x => d x == v)
      = xs.filter fun x => d x == v) := by
  refine ⟨?_, ?_, ?_⟩
  · intro v
    rw [multiPassGo_eq_stablePartition B Bscan kf hB hBs (e - s) s e
      (Nat.le_refl _) src dst0 hlen]
    exact stablePartition_filter_fiber _ _ _
      (fun x _ => extractDigitWindow_lt s e (kf x)) v
  · intro v
    rw [sort1pass_eq_stablePartition B Bscan kf s e src dst0 hB hBs hlen]
    exact stablePartition_filter_fiber _ _ _
      (fun x _ => extractDigitWindow_lt s e (kf x)) v
  · intro v
    rw [radixPass_eq_stablePartition d m B Bscan xs pdst hB hBs hd hplen]
    exact stablePartition_filter_fiber _ _ _ hd v

theorem claim_C3_witness :
    (0 : Nat) < 2 ∧ (0 : Nat) < 2
      ∧ ([(0, 0), (0, 0), (0, 0)] : List (Nat × Nat)).length
        = ([(3, 0), (1, 1), (3, 2)] : List (Nat × Nat)).length
      ∧ ([(0, 0), (0, 0)] : List (Nat × Nat)).length
        = ([(3, 5), (1, 6)] : List (Nat × Nat)).length
      ∧ (∀ x ∈ ([(3, 5), (1, 6)] : List (Nat × Nat)), x.1 % 2 < 2)
      ∧ ((∀ v, (multiPassGo 2 2 Prod.fst 0 2 [(3, 0), (1, 1), (3, 2)]
            [(0, 0), (0, 0), (0, 0)]).filter
            (fun x : Nat × Nat => extractDigitWindow 0 2 x.1 == v)
          = ([(3, 0), (1, 1), (3, 2)] : List (Nat × Nat)).filter
            fun x => extractDigitWindow 0 2 x.1 == v)
        ∧ (∀ v, (sort1pass 2 2 Prod.fst 0 2 [(3, 0), (1, 1), (3, 2)]
            [(0, 0), (0, 0), (0, 0)]).filter
            (fun x : Nat × Nat => extractDigitWindow 0 2 x.1 == v)
          = ([(3, 0), (1, 1), (3, 2)] : List (Nat × Nat)).filter
            fun x => extractDigitWindow 0 2 x.1 == v)
        ∧ (∀ v, (radixPass (fun x : Nat × Nat => x.1 % 2) 2 2 2
            [(3, 5), (1, 6)] [(0, 0), (0, 0)]).filter
            (fun x => x.1 % 2 == v)
          = ([(3, 5), (1, 6)] : List (Nat × Nat)).filter
            fun x => x.1 % 2 == v)) :=
  ⟨by decide, by decide, by decide, by decide, by decide,
    claim_C3_sort_stability Prod.fst (fun x => x.1 % 2) 2 2 2 0 2
      [(3, 0), (1, 1), (3, 2)] [(0, 0), (0, 0), (0, 0)]
      [(3, 5), (1, 6)] [(0, 0), (0, 0)]
      (by decide) (by decide) (by decide) (by decide) (by decide)⟩

/-- C4: when `0 < n ≤ thr`, the whole sort is delegated to the single-pass
decoupled look-back stage (`sort1pass`) in one kernel launch, and the
single-pass result is bit-identical to what the multi-pass
count/scan/scatter path computes for the same logical input. -/
theorem claim_C4_single_pass_refinement {α : Type} [Inhabited α] (kf : α → Nat)
    (B Bscan thr s e : Nat) (src dst0 : List α)
    (hB : 0 < B) (hBs : 0 < Bscan) (hlen : dst0.length = src.length)
    (hn : 0 < src.length) (hthr : src.length ≤ thr) :
    sort B Bscan thr kf s e src dst0
        = ⟨sort1pass B Bscan kf s e src dst0, 1⟩
      ∧ sort1pass B Bscan kf s e src dst0
        = multiPassGo B Bscan kf s e src dst0 := by
  constructor
  · unfold sort
    rw [if_neg (by omega), if_pos hthr]
  · exact sort1pass_eq_multiPassGo B Bscan kf s e src dst0 hB hBs hlen

theorem claim_C4_witness :
    (0 : Nat) < 2 ∧ (0 : Nat) < 2
      ∧ ([0, 0] : List Nat).length = ([4, 1] : List Nat).length
      ∧ 0 < ([4, 1] : List Nat).length ∧ ([4, 1] : List Nat).length ≤ 2
      ∧ (sort 2 2 2 id 0 3 [4, 1] [0, 0] = ⟨sort1pass 2 2 id 0 3 [4, 1] [0, 0], 1⟩
        ∧ sort1pass 2 2 id 0 3 [4, 1] [0, 0] = multiPassGo 2 2 id 0 3 [4, 1] [0, 0]) :=
  ⟨by decide, by decide, by decide, by decide, by decide,
    claim_C4_single_pass_refinement id 2 2 2 0 3 [4, 1] [0, 0]
      (by decide) (by decide) (by decide) (by decide) (by decide)⟩

/-- C5: the three scan algorithms — host fallback (`exclusiveScanCpu`),
single-workgroup, and parallel multi-block — compute the same function:
for every histogram input they produce identical exclusive-prefix-sum
offset tables. -/
theorem claim_C5_scan_equivalence (B : Nat) (l : List Nat) (hB : 0 < B) :
    scanImpl ScanAlgo.SCAN_CPU B l = scanImpl ScanAlgo.SCAN_GPU_SINGLE_WG B l
      ∧ scanImpl ScanAlgo.SCAN_CPU B l = scanImpl ScanAlgo.SCAN_GPU_PARALLEL B l := by
  constructor
  · exact (scanSingleWG_eq_cpu l).symm
  · exact (scanParallel_eq_cpu B l hB).symm

theorem claim_C5_witness :
    (0 : Nat) < 2
      ∧ (scanImpl ScanAlgo.SCAN_CPU 2 [3, 1, 4, 1, 5]
          = scanImpl ScanAlgo.SCAN_GPU_SINGLE_WG 2 [3, 1, 4, 1, 5]
        ∧ scanImpl ScanAlgo.SCAN_CPU 2 [3, 1, 4, 1, 5]
          = scanImpl ScanAlgo.SCAN_GPU_PARALLEL 2 [3, 1, 4, 1, 5]) :=
  ⟨by decide, claim_C5_scan_equivalence 2 [3, 1, 4, 1, 5] (by decide)⟩

/-- C6: a sort call whose digit window is invalid (`startBit ≥ endBit`, or
a window exceeding the 32-bit key width) fails fast with a descriptive
error reported to the caller instead of completing. -/
theorem claim_C6_invalid_window_error {α : Type} [Inhabited α] (kf : α → Nat)
    (B Bscan thr s e : Nat) (src dst0 : List α) (h : ¬ validDigitWindow s e) :
    sortChecked B Bscan thr kf s e src dst0
      = Except.error
        "RadixSort: invalid digit window: require 0 <= startBit < endBit <= 32" := by
  unfold sortChecked
  rw [if_neg h]

theorem claim_C6_witness :
    ¬ validDigitWindow 5 3
      ∧ sortChecked 2 2 2 id 5 3 [4, 1] [0, 0]
        = Except.error
          "RadixSort: invalid digit window: require 0 <= startBit < endBit <= 32" :=
  ⟨by decide, claim_C6_invalid_window_error id 2 2 2 5 3 [4, 1] [0, 0] (by decide)⟩

/-- C7: a sort call with `n = 0` launches no kernel and leaves the
destination buffer's contents unchanged. -/
theorem claim_C7_empty_input_frame {α : Type} [Inhabited α] (kf : α → Nat)
    (B Bscan thr s e : Nat) (src dst0 : List α) (h : src.length = 0) :
    sort B Bscan thr kf s e src dst0 = ⟨dst0, 0⟩ := by
  unfold sort
  rw [if_pos h]

theorem claim_C7_witness :
    ([] : List Nat).length = 0
      ∧ sort 2 2 2 id 0 32 ([] : List Nat) [7, 8] = ⟨[7, 8], 0⟩ :=
  ⟨by decide, claim_C7_empty_input_frame id 2 2 2 0 32 [] [7, 8] (by decide)⟩

/-- C8: the diagnostic logging toggle does not influence sort output —
running the sort with the `LOG` flag and with `NO_LOG` produces identical
destination contents and launch counts (two-run noninterference over the
flag state); only the diagnostic line list differs. -/
theorem claim_C8_logging_noninterference {α : Type} [Inhabited α] (kf : α → Nat)
    (B Bscan thr s e : Nat) (src dst0 : List α) :
    (sortLog B Bscan thr Flag.LOG kf s e src dst0).1
      = (sortLog B Bscan thr Flag.NO_LOG kf s e src dst0).1 := by
  unfold sortLog
  by_cases h0 : src.length = 0
  · rw [if_pos h0, if_pos h0]
  · rw [if_neg h0, if_neg h0]
    by_cases h1 : src.length ≤ thr
    · rw [if_pos h1, if_pos h1]
    · rw [if_neg h1, if_neg h1]
      show (⟨(multiPassGoLog B Bscan Flag.LOG kf s e src dst0 _).1, _⟩ : SortResult α)
          = ⟨(multiPassGoLog B Bscan Flag.NO_LOG kf s e src dst0 _).1, _⟩
      rw [multiPassGoLog_fst B Bscan Flag.LOG kf (e - s) s e (Nat.le_refl _) src dst0 _,
        multiPassGoLog_fst B Bscan Flag.NO_LOG kf (e - s) s e (Nat.le_refl _) src dst0 _]

/-- C9: the public interface accepts only 32-bit unsigned keys (and values),
so the digit-window precondition specializes to
`0 ≤ startBit < endBit ≤ 32`, `endBit = 32` is the largest valid window
bound, and a valid window reads only the low 32 bits of a key: extracting
the window from `k % 2^32` equals extracting it from `k`. -/
theorem claim_C9_key_width (s e : Nat) (h : validDigitWindow s e) :
    s < e ∧ e ≤ 32 ∧ keyWidth = 32
      ∧ ∀ k : Nat, extractDigitWindow s e (k % 2 ^ keyWidth)
        = extractDigitWindow s e k := by
  obtain ⟨h1, h2⟩ := h
  have h2' : e ≤ 32 := h2
  refine ⟨h1, h2', rfl, ?_⟩
  intro k
  unfold extractDigitWindow keyWidth
  have hs32 : s ≤ 32 := by omega
  have hpow : (2 : Nat) ^ 32 = 2 ^ s * 2 ^ (32 - s) := by
    rw [← Nat.pow_add]
    congr 1
    omega
  have hshift : (k % 2 ^ 32) >>> s = (k >>> s) % 2 ^ (32 - s) := by
    rw [Nat.shiftRight_eq_div_pow, Nat.shiftRight_eq_div_pow, hpow,
      Nat.mod_mul_right_div_self]
  rw [hshift, Nat.mod_mod_of_dvd]
  exact Nat.pow_dvd_pow 2 (by omega)

theorem claim_C9_witness :
    validDigitWindow 0 32
      ∧ ((0 : Nat) < 32 ∧ 32 ≤ 32 ∧ keyWidth = 32
        ∧ ∀ k : Nat, extractDigitWindow 0 32 (k % 2 ^ keyWidth)
          = extractDigitWindow 0 32 k) :=
  ⟨by decide, claim_C9_key_width 0 32 (by decide)⟩

/-- C10: the prefix-scan algorithm of the multi-pass path is fixed at
compile time to the parallel multi-block scan — `selectedScanAlgo` is the
constant `SCAN_GPU_PARALLEL`, and the offset table of every pass is the
one the parallel multi-block algorithm computes from the pass's count
table. -/
theorem claim_C10_scan_algo_fixed :
    selectedScanAlgo = ScanAlgo.SCAN_GPU_PARALLEL
      ∧ ∀ (α : Type) (d : α → Nat) (m B Bscan : Nat) (xs : List α),
        passOffsets d m B Bscan xs = scanParallel Bscan (countTable d m B xs) :=
  ⟨rfl, fun _ _ _ _ _ _ => rfl⟩

end RadixSort
